import Mathlib

/-!
Verification of the secure-QR container decoder (`decode_secure_qr` in `app.py`).

The decoder operates on the zlib-decompressed byte buffer (the base10→bytes
conversion and zlib inflation are upstream library calls, out of scope).  We
model byte buffers as `List Nat` (each entry a byte value 0–255), Python slice
clamping explicitly, ISO-8859-1 decoding as the byte→codepoint map, Python
`int(...)` parsing, `bytes.hex()` and `base64.b64encode`.
-/

namespace SecureQR

/-- The sentinel byte separating the 16 leading text fields. -/
def delimiter : Nat := 255

/-- Python slice-bound normalisation: a possibly negative index `i` into a
sequence of length `n` is shifted by `n` when negative and clamped to
`[0, n]`. -/
def pyBound (n : Nat) (i : Int) : Nat :=
  if i < 0 then
    if (n : Int) + i < 0 then 0 else ((n : Int) + i).toNat
  else min i.toNat n

/-- Python slice `l[a:b]` (step 1): clamp both bounds, then take the elements
between them (empty when `a ≥ b` after clamping). -/
def pySlice (l : List Nat) (a b : Int) : List Nat :=
  (l.take (pyBound l.length b)).drop (pyBound l.length a)

/-- The scan loop of `decode_secure_qr` (app.py lines 35–40): walk the buffer
from index `i`, collecting positions whose byte equals 255, stopping as soon
as `k` of them have been found. -/
def firstDelims : List Nat → Nat → Nat → List Nat
  | [], _, _ => []
  | _, _, 0 => []
  | b :: rest, i, Nat.succ k =>
      if b = delimiter then i :: firstDelims rest (i + 1) k
      else firstDelims rest (i + 1) (Nat.succ k)

/-- The `delimiter_positions` list after the loop: the first 16 offsets of byte 255. -/
def delimiterPositions (buf : List Nat) : List Nat :=
  firstDelims buf 0 16

/-- Specification-side scanner: ALL offsets (shifted by `i`) of byte 255 in
the buffer, in scan order.  Used to state that `delimiterPositions` returns
exactly the first 16 such offsets. -/
def allPositions : List Nat → Nat → List Nat
  | [], _ => []
  | b :: rest, i =>
      if b = delimiter then i :: allPositions rest (i + 1)
      else allPositions rest (i + 1)

/-- The field-extraction loop (app.py lines 44–52): for each delimiter
position `pos`, the segment is the Python slice `buf[start:pos]`, and `start`
advances to `pos + 1`. -/
def segmentsFrom (buf : List Nat) : Nat → List Nat → List (List Nat)
  | _, [] => []
  | start, pos :: rest =>
      (buf.take pos).drop start :: segmentsFrom buf (pos + 1) rest

/-- ISO-8859-1 decoding: every byte maps to the character with the same code
point. -/
def latin1Decode (bs : List Nat) : String :=
  String.mk (bs.map Char.ofNat)

/-- Code points Python's `int()` strips as whitespace (restricted to the
Latin-1 range that ISO-8859-1 decoding can produce). -/
def isPySpace (c : Char) : Bool :=
  [9, 10, 11, 12, 13, 28, 29, 30, 31, 32, 133, 160].contains c.toNat

/-- Strip leading and trailing whitespace, as `int()` does before parsing. -/
def pyStrip (cs : List Char) : List Char :=
  ((cs.dropWhile isPySpace).reverse.dropWhile isPySpace).reverse

/-- Digit-run parser for Python `int()`: ASCII digits, with single
underscores allowed between digits only. `acc` is the value parsed so far. -/
def parseDigitsAux : Nat → List Char → Option Nat
  | acc, [] => some acc
  | acc, c :: rest =>
      if c.isDigit then parseDigitsAux (acc * 10 + (c.toNat - 48)) rest
      else if c = '_' then
        match rest with
        | [] => none
        | d :: rest' =>
            if d.isDigit then parseDigitsAux (acc * 10 + (d.toNat - 48)) rest'
            else none
      else none

/-- A non-empty digit run starting with a digit. -/
def parseDigits : List Char → Option Nat
  | [] => none
  | c :: rest => if c.isDigit then parseDigitsAux (c.toNat - 48) rest else none

/-- Python `int(s)` on a Latin-1 string: strip whitespace, optional sign,
then a base-10 digit run; `none` models the `ValueError`. -/
def pyIntOfString (s : String) : Option Int :=
  match pyStrip s.data with
  | [] => none
  | '+' :: rest => (parseDigits rest).map (fun n => (n : Int))
  | '-' :: rest => (parseDigits rest).map (fun n => -(n : Int))
  | cs => (parseDigits cs).map (fun n => (n : Int))

/-- Lowercase hex digit for a nibble. -/
def hexDigitChar (n : Nat) : Char :=
  Char.ofNat (if n < 10 then 48 + n else 87 + n)

/-- Python `bytes.hex()` of a single byte: two lowercase hex characters. -/
def byteHexChars (b : Nat) : List Char :=
  [hexDigitChar (b / 16), hexDigitChar (b % 16)]

/-- Python `bytes.hex()`: two lowercase hex characters per byte. -/
def bytesHex (bs : List Nat) : String :=
  String.mk ((bs.map byteHexChars).flatten)

/-- The standard base64 alphabet. -/
def b64Char (n : Nat) : Char :=
  "ABCDEFGHIJKLMNOPQRSTUVWXYZabcdefghijklmnopqrstuvwxyz0123456789+/".data.getD n 'A'

/-- Python `base64.b64encode` (standard alphabet, `=` padding, no line wrapping),
producing the character list of the encoding. -/
def base64Encode : List Nat → List Char
  | [] => []
  | [a] => [b64Char (a / 4), b64Char (a % 4 * 16), '=', '=']
  | [a, b] => [b64Char (a / 4), b64Char (a % 4 * 16 + b / 16), b64Char (b % 16 * 4), '=']
  | a :: b :: c :: rest =>
      b64Char (a / 4) :: b64Char (a % 4 * 16 + b / 16) ::
      b64Char (b % 16 * 4 + c / 64) :: b64Char (c % 64) :: base64Encode rest

/-- The errors `decode_secure_qr` can raise after decompression, plus the
`TruncatedContainer` classification the specification mandates for
out-of-bounds tails (the source never raises it; see the claims). -/
inductive DecodeError where
  | malformedContainer
  | fieldCountMismatch
  | invalidIndicator
  | truncatedContainer
deriving Repr, DecidableEq

/-- The decoded record: 16 schema text fields, the base64 photo, and the
optional contact keys (`none` = key absent from the result dictionary). -/
structure DecodedRecord where
  indicator : String
  referenceId : String
  name : String
  dob : String
  gender : String
  care_of : String
  district : String
  landmark : String
  house : String
  location : String
  pin_code : String
  post_office : String
  state : String
  street : String
  sub_district : String
  VTC : String
  photo : String
  mobile : Option String
  email : Option String
deriving Repr, DecidableEq

/-- Python truthiness of `if mobile: result["mobile"] = mobile`: the key is
set only when the value is a non-empty string. -/
def truthy : Option String → Option String
  | some t => if t = "" then none else some t
  | none => none

/-- The `tail_extra` computation (app.py lines 69–73): 64 for indicator 3, 32 for 1 or 2,
otherwise 0. -/
def tailExtra (indicator : Int) : Nat :=
  if indicator = 3 then 64
  else if indicator = 1 ∨ indicator = 2 then 32
  else 0

/-- The 16 decoded text fields (app.py lines 44–52): inter-delimiter byte
ranges, each ISO-8859-1 decoded. -/
def textFields (buf : List Nat) : List String :=
  (segmentsFrom buf 0 (delimiterPositions buf)).map latin1Decode

/-- The first text field, `text_data["indicator"]`, as the decoder reads
it. -/
def indicatorText (buf : List Nat) : String :=
  (textFields buf).getD 0 ""

/-- The value `tail_start = len(decompressed) - tail_length` (app.py lines 75–76), as
a Python integer: it goes negative when the buffer is shorter than the
declared tail. -/
def tailStart (buf : List Nat) (indicator : Int) : Int :=
  (buf.length : Int) - ((256 + tailExtra indicator : Nat) : Int)

/-- The raw `mobile`/`email` values (app.py lines 81–93): `none` models the
Python `None`, `some` a hex string sliced from the tail. -/
def mobileEmailRaw (buf : List Nat) (indicator : Int) : Option String × Option String :=
  if indicator = 3 then
    (some (bytesHex (pySlice buf (tailStart buf indicator) (tailStart buf indicator + 32)).reverse),
     some (bytesHex (pySlice buf (tailStart buf indicator + 32) (tailStart buf indicator + 64)).reverse))
  else if indicator = 1 then
    (some (bytesHex (pySlice buf (tailStart buf indicator) (tailStart buf indicator + 32)).reverse), none)
  else if indicator = 2 then
    (none, some (bytesHex (pySlice buf (tailStart buf indicator) (tailStart buf indicator + 32)).reverse))
  else (none, none)

/-- The slice `photo_bytes` (app.py line 78): from just past the last delimiter to
`tail_start`, with Python slice clamping. -/
def photoBytes (buf : List Nat) (indicator : Int) : List Nat :=
  pySlice buf (((delimiterPositions buf).getLastD 0 : Int) + 1) (tailStart buf indicator)

/-- The decoder core of `decode_secure_qr` (app.py lines 34–102), operating
on the decompressed byte buffer. -/
def decode_secure_qr (buf : List Nat) : Except DecodeError DecodedRecord :=
  if (delimiterPositions buf).length < 16 then .error .malformedContainer
  else if (textFields buf).length ≠ 16 then .error .fieldCountMismatch
  else
    match pyIntOfString (indicatorText buf) with
    | none => .error .invalidIndicator
    | some indicator =>
      .ok
        { indicator := (textFields buf).getD 0 ""
          referenceId := (textFields buf).getD 1 ""
          name := (textFields buf).getD 2 ""
          dob := (textFields buf).getD 3 ""
          gender := (textFields buf).getD 4 ""
          care_of := (textFields buf).getD 5 ""
          district := (textFields buf).getD 6 ""
          landmark := (textFields buf).getD 7 ""
          house := (textFields buf).getD 8 ""
          location := (textFields buf).getD 9 ""
          pin_code := (textFields buf).getD 10 ""
          post_office := (textFields buf).getD 11 ""
          state := (textFields buf).getD 12 ""
          street := (textFields buf).getD 13 ""
          sub_district := (textFields buf).getD 14 ""
          VTC := (textFields buf).getD 15 ""
          photo := String.mk (base64Encode (photoBytes buf indicator))
          mobile := truthy (mobileEmailRaw buf indicator).1
          email := truthy (mobileEmailRaw buf indicator).2 }

/-- The list of the 16 text fields of a record, in schema order. -/
def textFieldList (r : DecodedRecord) : List String :=
  [r.indicator, r.referenceId, r.name, r.dob, r.gender, r.care_of, r.district,
   r.landmark, r.house, r.location, r.pin_code, r.post_office, r.state,
   r.street, r.sub_district, r.VTC]

/-- Join 16 text segments with the sentinel after each, followed by the rest
(photo, contact blocks, signature). -/
def joinSegs (segs : List (List Nat)) (rest : List Nat) : List Nat :=
  segs.foldr (fun s acc => s ++ delimiter :: acc) rest

/-- Total length contributed by the delimited segments (each segment plus its
sentinel). -/
def joinLen (segs : List (List Nat)) : Nat :=
  (segs.map (fun s => s.length + 1)).sum

/-- Delimiter offsets of a joined buffer: each segment end, cumulatively. -/
def segOffsets : List (List Nat) → Nat → List Nat
  | [], _ => []
  | s :: ss, i => (i + s.length) :: segOffsets ss (i + s.length + 1)

/-! ### Scanner lemmas -/

lemma firstDelims_zero (l : List Nat) (i : Nat) : firstDelims l i 0 = [] := by
  cases l <;> rfl

lemma firstDelims_cons (b : Nat) (t : List Nat) (i k : Nat) :
    firstDelims (b :: t) i (k + 1) =
      if b = delimiter then i :: firstDelims t (i + 1) k
      else firstDelims t (i + 1) (k + 1) := rfl

lemma allPositions_cons (b : Nat) (t : List Nat) (i : Nat) :
    allPositions (b :: t) i =
      if b = delimiter then i :: allPositions t (i + 1)
      else allPositions t (i + 1) := rfl

lemma firstDelims_eq_take_allPositions (l : List Nat) :
    ∀ i k, firstDelims l i k = (allPositions l i).take k := by
  induction l with
  | nil => intro i k; simp [firstDelims, allPositions]
  | cons b t ih =>
    intro i k
    cases k with
    | zero => simp [firstDelims_zero]
    | succ k =>
      rw [firstDelims_cons, allPositions_cons]
      by_cases hb : b = delimiter <;> simp [hb, ih]

lemma length_allPositions (l : List Nat) : ∀ i, (allPositions l i).length = l.count delimiter := by
  induction l with
  | nil => intro i; simp [allPositions]
  | cons b t ih =>
    intro i
    rw [allPositions_cons, List.count_cons]
    by_cases hb : b = delimiter
    · simp [hb, ih]
    · have hb' : ¬ (b == delimiter) = true := by simpa using hb
      simp [hb, ih, hb']

lemma length_firstDelims (l : List Nat) (i k : Nat) :
    (firstDelims l i k).length = min (l.count delimiter) k := by
  rw [firstDelims_eq_take_allPositions, List.length_take, length_allPositions,
    Nat.min_comm]

lemma mem_allPositions_ge (l : List Nat) :
    ∀ i p, p ∈ allPositions l i → i ≤ p := by
  induction l with
  | nil => intro i p h; simp [allPositions] at h
  | cons b t ih =>
    intro i p h
    rw [allPositions_cons] at h
    by_cases hb : b = delimiter
    · simp [hb] at h
      rcases h with rfl | h
      · exact le_refl p
      · exact le_trans (Nat.le_succ i) (ih (i + 1) p h)
    · simp [hb] at h
      exact le_trans (Nat.le_succ i) (ih (i + 1) p h)

lemma mem_firstDelims_ge (l : List Nat) (i k p : Nat) (h : p ∈ firstDelims l i k) : i ≤ p := by
  rw [firstDelims_eq_take_allPositions] at h
  exact mem_allPositions_ge l i p ((List.take_subset k _) h)

lemma pairwise_allPositions (l : List Nat) : ∀ i, List.Pairwise (· < ·) (allPositions l i) := by
  induction l with
  | nil => intro i; simp [allPositions]
  | cons b t ih =>
    intro i
    rw [allPositions_cons]
    by_cases hb : b = delimiter
    · simp only [hb, if_pos rfl]
      refine List.pairwise_cons.mpr ⟨?_, ih (i + 1)⟩
      intro p hp
      exact lt_of_lt_of_le (Nat.lt_succ_self i) (mem_allPositions_ge t (i + 1) p hp)
    · simpa [hb] using ih (i + 1)

lemma pairwise_firstDelims (l : List Nat) (i k : Nat) :
    List.Pairwise (· < ·) (firstDelims l i k) := by
  rw [firstDelims_eq_take_allPositions]
  exact (pairwise_allPositions l i).sublist (List.take_sublist k _)

lemma firstDelims_append (l1 : List Nat) :
    ∀ l2 i k, firstDelims (l1 ++ l2) i k =
      firstDelims l1 i k ++
        firstDelims l2 (i + l1.length) (k - (firstDelims l1 i k).length) := by
  induction l1 with
  | nil => intro l2 i k; simp [firstDelims]
  | cons b t ih =>
    intro l2 i k
    cases k with
    | zero => simp [firstDelims_zero]
    | succ k =>
      rw [List.cons_append, firstDelims_cons, firstDelims_cons]
      by_cases hb : b = delimiter
      · simp only [if_pos hb, List.cons_append, List.length_cons]
        rw [ih l2 (i + 1) k]
        have h1 : i + (t.length + 1) = i + 1 + t.length := by omega
        have h2 : k + 1 - ((firstDelims t (i + 1) k).length + 1) =
            k - (firstDelims t (i + 1) k).length := by omega
        rw [h1, h2]
      · simp only [if_neg hb, List.length_cons]
        rw [ih l2 (i + 1) (k + 1)]
        have h1 : i + (t.length + 1) = i + 1 + t.length := by omega
        rw [h1]

lemma getLastD_mem {α : Type} (l : List α) (d : α) (h : l ≠ []) : l.getLastD d ∈ l := by
  induction l generalizing d with
  | nil => exact absurd rfl h
  | cons x t ih =>
    rw [List.getLastD_cons]
    cases t with
    | nil => simp [List.getLastD]
    | cons y u => exact List.mem_cons_of_mem x (ih x (by simp))

lemma getLastD_indep {α : Type} (l : List α) (d d' : α) (h : l ≠ []) :
    l.getLastD d = l.getLastD d' := by
  cases l with
  | nil => exact absurd rfl h
  | cons x t => rw [List.getLastD_cons, List.getLastD_cons]

/-- The scan loop never reads past the 16th delimiter: once `k` delimiters
have been found, truncating the buffer right after the last one leaves the
result unchanged. -/
lemma firstDelims_take_last (l : List Nat) :
    ∀ i k, 0 < k → (firstDelims l i k).length = k →
      firstDelims (l.take ((firstDelims l i k).getLastD 0 + 1 - i)) i k =
        firstDelims l i k := by
  induction l with
  | nil =>
    intro i k hk hlen
    simp [firstDelims] at hlen
    omega
  | cons b t ih =>
    intro i k hk hlen
    cases k with
    | zero => omega
    | succ k =>
      by_cases hb : b = delimiter
      · rw [firstDelims_cons, if_pos hb] at hlen ⊢
        rw [List.getLastD_cons]
        cases Nat.eq_zero_or_pos k with
        | inl hk0 =>
          subst hk0
          rw [firstDelims_zero] at *
          simp only [List.getLastD]
          have : i + 1 - i = 1 := by omega
          rw [this]
          simp [List.take, firstDelims_cons, if_pos hb, firstDelims_zero]
        | inr hkpos =>
          have hlen' : (firstDelims t (i + 1) k).length = k := by
            simpa using hlen
          have hne : firstDelims t (i + 1) k ≠ [] := by
            intro h; rw [h] at hlen'; simp at hlen'; omega
          have hind : (firstDelims t (i + 1) k).getLastD i =
              (firstDelims t (i + 1) k).getLastD 0 := getLastD_indep _ i 0 hne
          rw [hind]
          set last := (firstDelims t (i + 1) k).getLastD 0 with hlast
          have hge : i + 1 ≤ last :=
            mem_firstDelims_ge t (i + 1) k last (getLastD_mem _ 0 hne)
          have htake : (b :: t).take (last + 1 - i) =
              b :: t.take (last + 1 - (i + 1)) := by
            have : last + 1 - i = (last + 1 - (i + 1)) + 1 := by omega
            rw [this, List.take_succ_cons]
          rw [htake, firstDelims_cons, if_pos hb, ih (i + 1) k hkpos hlen']
      · rw [firstDelims_cons, if_neg hb] at hlen ⊢
        have hne : firstDelims t (i + 1) (k + 1) ≠ [] := by
          intro h; rw [h] at hlen; simp at hlen
        set last := (firstDelims t (i + 1) (k + 1)).getLastD 0 with hlast
        have hge : i + 1 ≤ last :=
          mem_firstDelims_ge t (i + 1) (k + 1) last (getLastD_mem _ 0 hne)
        have htake : (b :: t).take (last + 1 - i) =
            b :: t.take (last + 1 - (i + 1)) := by
          have : last + 1 - i = (last + 1 - (i + 1)) + 1 := by omega
          rw [this, List.take_succ_cons]
        rw [htake, firstDelims_cons, if_neg hb, ih (i + 1) (k + 1) (by omega) hlen]

/-! ### Joined-buffer lemmas -/

lemma joinSegs_nil (rest : List Nat) : joinSegs [] rest = rest := rfl

lemma joinSegs_cons (s : List Nat) (ss : List (List Nat)) (rest : List Nat) :
    joinSegs (s :: ss) rest = s ++ delimiter :: joinSegs ss rest := rfl

lemma joinLen_nil : joinLen [] = 0 := rfl

lemma joinLen_cons (s : List Nat) (ss : List (List Nat)) :
    joinLen (s :: ss) = s.length + 1 + joinLen ss := by
  simp [joinLen]

lemma joinSegs_eq_append (segs : List (List Nat)) (rest : List Nat) :
    joinSegs segs rest = joinSegs segs [] ++ rest := by
  induction segs with
  | nil => simp [joinSegs_nil]
  | cons s ss ih => rw [joinSegs_cons, joinSegs_cons, ih]; simp

lemma length_joinSegs (segs : List (List Nat)) (rest : List Nat) :
    (joinSegs segs rest).length = joinLen segs + rest.length := by
  induction segs with
  | nil => simp [joinSegs_nil, joinLen_nil]
  | cons s ss ih => rw [joinSegs_cons, joinLen_cons]; simp [ih]; omega

lemma joinLen_pos (s : List Nat) (ss : List (List Nat)) : 0 < joinLen (s :: ss) := by
  rw [joinLen_cons]; omega

/-- Scanning a 255-free block just advances the running index. -/
lemma firstDelims_skip (s : List Nat) (hfree : ∀ b ∈ s, b ≠ delimiter) :
    ∀ l i k, firstDelims (s ++ l) i k = firstDelims l (i + s.length) k := by
  induction s with
  | nil => intro l i k; simp
  | cons c s' ih =>
    intro l i k
    have hc : c ≠ delimiter := hfree c (by simp)
    have hfree' : ∀ b ∈ s', b ≠ delimiter := fun b hb => hfree b (by simp [hb])
    cases k with
    | zero => rw [firstDelims_zero, firstDelims_zero]
    | succ k =>
      have harith : i + (c :: s').length = i + 1 + s'.length := by
        simp only [List.length_cons]; omega
      rw [List.cons_append, firstDelims_cons, if_neg hc, ih hfree' l (i + 1) (k + 1),
        harith]

/-- Scanning a joined buffer of 255-free segments yields the segment-end
offsets, then continues into the rest with the remaining count. -/
lemma firstDelims_join (segs : List (List Nat)) :
    ∀ rest i k, segs.length ≤ k → (∀ s ∈ segs, ∀ b ∈ s, b ≠ delimiter) →
      firstDelims (joinSegs segs rest) i k =
        segOffsets segs i ++ firstDelims rest (i + joinLen segs) (k - segs.length) := by
  induction segs with
  | nil => intro rest i k _ _; simp [joinSegs_nil, segOffsets, joinLen_nil]
  | cons s ss ih =>
    intro rest i k hk hfree
    have hsfree : ∀ b ∈ s, b ≠ delimiter := hfree s (by simp)
    have hssfree : ∀ t ∈ ss, ∀ b ∈ t, b ≠ delimiter :=
      fun t ht => hfree t (by simp [ht])
    cases k with
    | zero => simp at hk
    | succ k =>
      have hk' : ss.length ≤ k := by simpa using hk
      rw [joinSegs_cons, firstDelims_skip s hsfree, firstDelims_cons, if_pos rfl,
        ih rest (i + s.length + 1) k hk' hssfree]
      have h1 : i + joinLen (s :: ss) = i + s.length + 1 + joinLen ss := by
        rw [joinLen_cons]; omega
      have h2 : k + 1 - (s :: ss).length = k - ss.length := by
        simp only [List.length_cons]; omega
      simp only [segOffsets, List.cons_append]
      rw [h1, h2]

lemma segOffsets_length (segs : List (List Nat)) : ∀ i, (segOffsets segs i).length = segs.length := by
  induction segs with
  | nil => intro i; rfl
  | cons s ss ih => intro i; simp [segOffsets, ih]

lemma segOffsets_ne_nil (s : List Nat) (ss : List (List Nat)) (i : Nat) :
    segOffsets (s :: ss) i ≠ [] := by
  rw [segOffsets]; simp

lemma segOffsets_getLastD (segs : List (List Nat)) (hne : segs ≠ []) :
    ∀ i d, (segOffsets segs i).getLastD d = i + joinLen segs - 1 := by
  induction segs with
  | nil => exact absurd rfl hne
  | cons s ss ih =>
    intro i d
    rw [segOffsets, List.getLastD_cons]
    cases ss with
    | nil => simp [segOffsets, List.getLastD, joinLen_cons, joinLen_nil]
    | cons t ts =>
      rw [ih (by simp) (i + s.length + 1) (i + s.length)]
      simp only [joinLen_cons]
      omega

lemma segmentsFrom_length (buf : List Nat) :
    ∀ start positions, (segmentsFrom buf start positions).length = positions.length := by
  intro start positions
  induction positions generalizing start with
  | nil => rfl
  | cons p ps ih => simp [segmentsFrom, ih]

/-- Extracting the inter-delimiter segments of a joined buffer recovers the
original segments. -/
lemma segmentsFrom_join (segs : List (List Nat)) :
    ∀ (pre : List Nat) (rest : List Nat),
      segmentsFrom (pre ++ joinSegs segs rest) pre.length (segOffsets segs pre.length) =
        segs := by
  induction segs with
  | nil => intro pre rest; rfl
  | cons s ss ih =>
    intro pre rest
    rw [joinSegs_cons, segOffsets, segmentsFrom]
    have hhead : ((pre ++ (s ++ delimiter :: joinSegs ss rest)).take
        (pre.length + s.length)).drop pre.length = s := by
      rw [List.take_append s.length, List.drop_left]
      rw [List.take_append_of_le_length (le_refl s.length) ]
      exact List.take_length s
    have htail : segmentsFrom (pre ++ (s ++ delimiter :: joinSegs ss rest))
        (pre.length + s.length + 1) (segOffsets ss (pre.length + s.length + 1)) = ss := by
      have hassoc : pre ++ (s ++ delimiter :: joinSegs ss rest) =
          (pre ++ s ++ [delimiter]) ++ joinSegs ss rest := by simp
      have hlen : (pre ++ s ++ [delimiter]).length = pre.length + s.length + 1 := by
        simp; omega
      rw [hassoc, ← hlen, ih (pre ++ s ++ [delimiter]) rest]
    rw [hhead, htail]

/-! ### Slice lemmas -/

lemma take_min_length (l : List Nat) (m : Nat) : l.take (min m l.length) = l.take m := by
  rcases Nat.le_total m l.length with h | h
  · rw [Nat.min_eq_left h]
  · rw [Nat.min_eq_right h, List.take_length, List.take_of_length_le h]

lemma pyBound_natCast (n a : Nat) : pyBound n (a : Int) = min a n := by
  unfold pyBound
  rw [if_neg (by omega)]
  simp

/-- With non-negative bounds, a Python slice is just take-then-drop (both of
which already clamp at the length). -/
lemma pySlice_natCast (l : List Nat) (a b : Nat) :
    pySlice l (a : Int) (b : Int) = (l.take b).drop a := by
  unfold pySlice
  rw [pyBound_natCast, pyBound_natCast, take_min_length]
  rcases Nat.le_total a l.length with h | h
  · rw [Nat.min_eq_left h]
  · rw [Nat.min_eq_right h]
    have h1 : (l.take b).length ≤ l.length := by
      rw [List.length_take]; omega
    rw [List.drop_eq_nil_of_le h1, List.drop_eq_nil_of_le (le_trans h1 h)]

/-- A slice that lies entirely beyond a prefix ignores the prefix. -/
lemma pySlice_append (pre l : List Nat) (a b : Nat) :
    pySlice (pre ++ l) ((pre.length + a : Nat) : Int) ((pre.length + b : Nat) : Int) =
      (l.take b).drop a := by
  rw [pySlice_natCast, List.take_append b, List.drop_append a]

lemma drop_take_comm (l : List Nat) (a m : Nat) :
    (l.take (a + m)).drop a = (l.drop a).take m := by
  rw [List.drop_take]
  congr 1
  omega

/-! ### String helpers -/

lemma bytesHex_length (bs : List Nat) : (bytesHex bs).length = 2 * bs.length := by
  show ((bs.map byteHexChars).flatten).length = 2 * bs.length
  induction bs with
  | nil => rfl
  | cons b t ih =>
    simp only [List.map_cons, List.flatten_cons, List.length_append, ih]
    show 2 + 2 * t.length = 2 * (t.length + 1)
    omega

lemma bytesHex_ne_empty (bs : List Nat) (h : bs ≠ []) : bytesHex bs ≠ "" := by
  intro hcontra
  have : (bytesHex bs).length = 0 := by rw [hcontra]; rfl
  rw [bytesHex_length bs] at this
  cases bs with
  | nil => exact h rfl
  | cons x t => simp at this

lemma truthy_some {o : Option String} {s : String} (h : truthy o = some s) : s ≠ "" := by
  cases o with
  | none => simp [truthy] at h
  | some t =>
    by_cases ht : t = ""
    · simp [truthy, ht] at h
    · simp [truthy, ht] at h
      rw [← h]; exact ht

lemma truthy_of_ne_empty {s : String} (h : s ≠ "") : truthy (some s) = some s := by
  simp [truthy, h]

/-- ISO-8859-1 decoding never introduces the delimiter code point from a
non-delimiter byte. -/
lemma charOfNat_toNat_ne (b : Nat) (hb : b ≠ delimiter) : (Char.ofNat b).toNat ≠ delimiter := by
  unfold Char.ofNat
  split
  · next h =>
    have : (Char.ofNatAux b h).toNat = b := by
      simp [Char.ofNatAux, Char.toNat, UInt32.toNat, UInt32.ofNatCore,
        BitVec.toNat_ofNatLt]
    rw [this]; exact hb
  · decide

/-- Every buffer decomposes as the 255-free segments found by the scanner,
joined with delimiters, followed by the unscanned rest. -/
lemma exists_join (k : Nat) :
    ∀ (l : List Nat) (i : Nat), ∃ segs rest,
      l = joinSegs segs rest ∧
      segs.length = (firstDelims l i k).length ∧
      (∀ s ∈ segs, ∀ b ∈ s, b ≠ delimiter) ∧
      firstDelims l i k = segOffsets segs i := by
  induction k with
  | zero =>
    intro l i
    exact ⟨[], l, rfl, by rw [firstDelims_zero]; rfl, by simp, by rw [firstDelims_zero]; rfl⟩
  | succ k ih =>
    intro l
    induction l with
    | nil =>
      intro i
      exact ⟨[], [], rfl, rfl, by simp, rfl⟩
    | cons b t iht =>
      intro i
      by_cases hb : b = delimiter
      · obtain ⟨segs', rest', hjoin, hlen, hfree, hoffs⟩ := ih t (i + 1)
        refine ⟨[] :: segs', rest', ?_, ?_, ?_, ?_⟩
        · rw [joinSegs_cons, hjoin, hb]; rfl
        · rw [firstDelims_cons, if_pos hb]
          simp [hlen]
        · intro s hs
          rcases List.mem_cons.mp hs with rfl | hs'
          · intro x hx; simp at hx
          · exact hfree s hs'
        · rw [firstDelims_cons, if_pos hb, hoffs, segOffsets]
          simp
      · obtain ⟨segs', rest', hjoin, hlen, hfree, hoffs⟩ := iht (i + 1)
        cases segs' with
        | nil =>
          refine ⟨[], b :: t, rfl, ?_, by simp, ?_⟩
          · rw [firstDelims_cons, if_neg hb, ← hlen]
          · rw [firstDelims_cons, if_neg hb, hoffs]
            rfl
        | cons s ss =>
          refine ⟨(b :: s) :: ss, rest', ?_, ?_, ?_, ?_⟩
          · rw [joinSegs_cons]
            rw [joinSegs_cons] at hjoin
            rw [hjoin]
            simp
          · rw [firstDelims_cons, if_neg hb, ← hlen]
            simp
          · intro u hu
            rcases List.mem_cons.mp hu with rfl | hu'
            · intro x hx
              rcases List.mem_cons.mp hx with rfl | hx'
              · exact hb
              · exact hfree s (by simp) x hx'
            · exact hfree u (by simp [hu'])
          · rw [firstDelims_cons, if_neg hb, hoffs, segOffsets, segOffsets]
            simp only [List.length_cons]
            have h1 : i + 1 + s.length = i + (s.length + 1) := by omega
            rw [h1]

/-! ### Decoding a joined buffer -/

lemma delimiterPositions_join (segs : List (List Nat)) (rest : List Nat)
    (hlen : segs.length = 16) (hfree : ∀ s ∈ segs, ∀ b ∈ s, b ≠ delimiter) :
    delimiterPositions (joinSegs segs rest) = segOffsets segs 0 := by
  rw [delimiterPositions, firstDelims_join segs rest 0 16 (by omega) hfree, hlen]
  simp [firstDelims_zero]

lemma textFields_join (segs : List (List Nat)) (rest : List Nat)
    (hlen : segs.length = 16) (hfree : ∀ s ∈ segs, ∀ b ∈ s, b ≠ delimiter) :
    textFields (joinSegs segs rest) = segs.map latin1Decode := by
  rw [textFields, delimiterPositions_join segs rest hlen hfree]
  have h := segmentsFrom_join segs [] rest
  simp only [List.nil_append, List.length_nil] at h
  rw [h]

lemma getLastD_positions_join (segs : List (List Nat)) (rest : List Nat)
    (hlen : segs.length = 16) (hfree : ∀ s ∈ segs, ∀ b ∈ s, b ≠ delimiter) :
    (delimiterPositions (joinSegs segs rest)).getLastD 0 = joinLen segs - 1 := by
  rw [delimiterPositions_join segs rest hlen hfree]
  have hne : segs ≠ [] := by intro h; rw [h] at hlen; simp at hlen
  rw [segOffsets_getLastD segs hne 0 0]
  omega

lemma joinLen_pos_of_length (segs : List (List Nat)) (hlen : segs.length = 16) :
    0 < joinLen segs := by
  cases segs with
  | nil => simp at hlen
  | cons s ss => exact joinLen_pos s ss

lemma pySlice_join_tail (segs : List (List Nat)) (rest : List Nat) (a b : Nat) :
    pySlice (joinSegs segs rest) ((joinLen segs + a : Nat) : Int)
      ((joinLen segs + b : Nat) : Int) = (rest.take b).drop a := by
  rw [joinSegs_eq_append]
  have hl : joinLen segs = (joinSegs segs []).length := by
    rw [length_joinSegs]; simp
  rw [hl]
  exact pySlice_append _ _ a b

lemma tailStart_join (segs : List (List Nat)) (rest : List Nat) (ind : Int)
    (hrest : 256 + tailExtra ind ≤ rest.length) :
    tailStart (joinSegs segs rest) ind =
      ((joinLen segs + (rest.length - (256 + tailExtra ind)) : Nat) : Int) := by
  rw [tailStart, length_joinSegs]
  omega

lemma photoBytes_join (segs : List (List Nat)) (rest : List Nat) (ind : Int)
    (hlen : segs.length = 16) (hfree : ∀ s ∈ segs, ∀ b ∈ s, b ≠ delimiter)
    (hrest : 256 + tailExtra ind ≤ rest.length) :
    photoBytes (joinSegs segs rest) ind =
      rest.take (rest.length - (256 + tailExtra ind)) := by
  rw [photoBytes, getLastD_positions_join segs rest hlen hfree,
    tailStart_join segs rest ind hrest]
  have hpos := joinLen_pos_of_length segs hlen
  have hcast : ((joinLen segs - 1 : Nat) : Int) + 1 = ((joinLen segs + 0 : Nat) : Int) := by
    omega
  rw [hcast, pySlice_join_tail]
  simp

lemma drop_take_32_length (rest : List Nat) (a : Nat) (h : a + 32 ≤ rest.length) :
    ((rest.drop a).take 32).length = 32 := by
  rw [List.length_take, List.length_drop]
  omega

lemma hex_rev_ne_empty (bs : List Nat) (h : bs.length = 32) :
    bytesHex bs.reverse ≠ "" := by
  apply bytesHex_ne_empty
  intro hc
  have : bs.reverse.length = 0 := by rw [hc]; rfl
  rw [List.length_reverse] at this
  omega

lemma mobileEmail_join (segs : List (List Nat)) (rest : List Nat) (ind : Int)
    (hrest : 256 + tailExtra ind ≤ rest.length) :
    truthy (mobileEmailRaw (joinSegs segs rest) ind).1 =
      (if ind = 1 ∨ ind = 3 then
        some (bytesHex ((rest.drop (rest.length - (256 + tailExtra ind))).take 32).reverse)
      else none) ∧
    truthy (mobileEmailRaw (joinSegs segs rest) ind).2 =
      (if ind = 2 ∨ ind = 3 then
        some (bytesHex ((rest.drop (rest.length - (256 + tailExtra ind) +
          (if ind = 3 then 32 else 0))).take 32).reverse)
      else none) := by
  have hts := tailStart_join segs rest ind hrest
  set ts := rest.length - (256 + tailExtra ind) with hts_def
  have hcast32 : tailStart (joinSegs segs rest) ind + 32 =
      ((joinLen segs + (ts + 32) : Nat) : Int) := by rw [hts]; push_cast; ring
  have hcast64 : tailStart (joinSegs segs rest) ind + 64 =
      ((joinLen segs + (ts + 64) : Nat) : Int) := by rw [hts]; push_cast; ring
  have hts0 : tailStart (joinSegs segs rest) ind =
      ((joinLen segs + ts : Nat) : Int) := hts
  have hslice1 : pySlice (joinSegs segs rest) (tailStart (joinSegs segs rest) ind)
      (tailStart (joinSegs segs rest) ind + 32) = (rest.drop ts).take 32 := by
    rw [hcast32, hts0, pySlice_join_tail, drop_take_comm]
  have hslice2 : pySlice (joinSegs segs rest) (tailStart (joinSegs segs rest) ind + 32)
      (tailStart (joinSegs segs rest) ind + 64) = (rest.drop (ts + 32)).take 32 := by
    rw [hcast32, hcast64, pySlice_join_tail]
    have h64 : ts + 64 = ts + 32 + 32 := by omega
    rw [h64, drop_take_comm]
  by_cases h3 : ind = 3
  · have hextra : tailExtra ind = 64 := by simp [tailExtra, h3]
    have hlen1 : ((rest.drop ts).take 32).length = 32 :=
      drop_take_32_length rest ts (by omega)
    have hlen2 : ((rest.drop (ts + 32)).take 32).length = 32 :=
      drop_take_32_length rest (ts + 32) (by omega)
    rw [mobileEmailRaw, if_pos h3]
    constructor
    · show truthy (some _) = _
      rw [hslice1, truthy_of_ne_empty (hex_rev_ne_empty _ hlen1), if_pos (Or.inr h3)]
    · show truthy (some _) = _
      rw [hslice2, truthy_of_ne_empty (hex_rev_ne_empty _ hlen2), if_pos (Or.inr h3),
        if_pos h3]
  · by_cases h1 : ind = 1
    · have hextra : tailExtra ind = 32 := by simp [tailExtra, h1, h3]
      have hlen1 : ((rest.drop ts).take 32).length = 32 :=
        drop_take_32_length rest ts (by omega)
      rw [mobileEmailRaw, if_neg h3, if_pos h1]
      constructor
      · show truthy (some _) = _
        rw [hslice1, truthy_of_ne_empty (hex_rev_ne_empty _ hlen1), if_pos (Or.inl h1)]
      · show truthy none = _
        rw [if_neg (by rintro (h | h) <;> omega)]
        rfl
    · by_cases h2 : ind = 2
      · have hextra : tailExtra ind = 32 := by simp [tailExtra, h2, h3]
        have hlen1 : ((rest.drop ts).take 32).length = 32 :=
          drop_take_32_length rest ts (by omega)
        rw [mobileEmailRaw, if_neg h3, if_neg h1, if_pos h2]
        constructor
        · show truthy none = _
          rw [if_neg (by rintro (h | h) <;> omega)]
          rfl
        · show truthy (some _) = _
          rw [hslice1, truthy_of_ne_empty (hex_rev_ne_empty _ hlen1), if_pos (Or.inl h2),
            if_neg h3]
          rfl
      · rw [mobileEmailRaw, if_neg h3, if_neg h1, if_neg h2]
        constructor
        · show truthy none = _
          rw [if_neg (by rintro (h | h) <;> omega)]
          rfl
        · show truthy none = _
          rw [if_neg (by rintro (h | h) <;> omega)]
          rfl

/-- Decoding a buffer of 16 delimiter-terminated, 255-free segments followed
by `rest` (photo ++ declared tail), when `rest` is long enough for the
declared tail: every output component in closed form. -/
theorem decode_join (segs : List (List Nat)) (rest : List Nat) (ind : Int)
    (hlen : segs.length = 16)
    (hfree : ∀ s ∈ segs, ∀ b ∈ s, b ≠ delimiter)
    (hind : pyIntOfString ((segs.map latin1Decode).getD 0 "") = some ind)
    (hrest : 256 + tailExtra ind ≤ rest.length) :
    decode_secure_qr (joinSegs segs rest) = .ok
      { indicator := (segs.map latin1Decode).getD 0 ""
        referenceId := (segs.map latin1Decode).getD 1 ""
        name := (segs.map latin1Decode).getD 2 ""
        dob := (segs.map latin1Decode).getD 3 ""
        gender := (segs.map latin1Decode).getD 4 ""
        care_of := (segs.map latin1Decode).getD 5 ""
        district := (segs.map latin1Decode).getD 6 ""
        landmark := (segs.map latin1Decode).getD 7 ""
        house := (segs.map latin1Decode).getD 8 ""
        location := (segs.map latin1Decode).getD 9 ""
        pin_code := (segs.map latin1Decode).getD 10 ""
        post_office := (segs.map latin1Decode).getD 11 ""
        state := (segs.map latin1Decode).getD 12 ""
        street := (segs.map latin1Decode).getD 13 ""
        sub_district := (segs.map latin1Decode).getD 14 ""
        VTC := (segs.map latin1Decode).getD 15 ""
        photo := String.mk (base64Encode (rest.take (rest.length - (256 + tailExtra ind))))
        mobile :=
          if ind = 1 ∨ ind = 3 then
            some (bytesHex ((rest.drop (rest.length - (256 + tailExtra ind))).take 32).reverse)
          else none
        email :=
          if ind = 2 ∨ ind = 3 then
            some (bytesHex ((rest.drop (rest.length - (256 + tailExtra ind) +
              (if ind = 3 then 32 else 0))).take 32).reverse)
          else none } := by
  have htf := textFields_join segs rest hlen hfree
  have hpos := delimiterPositions_join segs rest hlen hfree
  have hposlen : (delimiterPositions (joinSegs segs rest)).length = 16 := by
    rw [hpos, segOffsets_length, hlen]
  have htflen : (textFields (joinSegs segs rest)).length = 16 := by
    rw [htf, List.length_map, hlen]
  have hit : indicatorText (joinSegs segs rest) = (segs.map latin1Decode).getD 0 "" := by
    rw [indicatorText, htf]
  have hphoto := photoBytes_join segs rest ind hlen hfree hrest
  obtain ⟨hm, he⟩ := mobileEmail_join segs rest ind hrest
  unfold decode_secure_qr
  rw [if_neg (by rw [hposlen]; omega), if_neg (by rw [htflen]; omega), hit, hind]
  simp only [htf, hphoto, hm, he]

/-! ### Decoding an arbitrary buffer -/

/-- The value `tail_start` as a natural number (meaningful when the buffer is at least
as long as the declared tail). -/
def tailStartNat (buf : List Nat) (ind : Int) : Nat :=
  buf.length - (256 + tailExtra ind)

/-- A structurally valid container: 16 delimiters are found, the indicator
parses, and the buffer is long enough that the declared tail region starts
at or after the byte following the 16th delimiter. -/
def validContainer (buf : List Nat) (ind : Int) : Prop :=
  (delimiterPositions buf).length = 16 ∧
  pyIntOfString (indicatorText buf) = some ind ∧
  (delimiterPositions buf).getLastD 0 + 1 + (256 + tailExtra ind) ≤ buf.length

lemma decode_ok_16 {buf : List Nat} {r : DecodedRecord}
    (h : decode_secure_qr buf = .ok r) : (delimiterPositions buf).length = 16 := by
  have hle : (delimiterPositions buf).length ≤ 16 := by
    rw [delimiterPositions, length_firstDelims]; omega
  by_contra hne
  have hlt : (delimiterPositions buf).length < 16 := by omega
  unfold decode_secure_qr at h
  rw [if_pos hlt] at h
  exact Except.noConfusion h

lemma textFields_length (buf : List Nat) :
    (textFields buf).length = (delimiterPositions buf).length := by
  rw [textFields, List.length_map, segmentsFrom_length]

/-- Once 16 delimiters are found and the indicator parses, the decoder
always succeeds, and every output component is determined. -/
lemma decode_eq (buf : List Nat) (ind : Int)
    (h16 : (delimiterPositions buf).length = 16)
    (hind : pyIntOfString (indicatorText buf) = some ind) :
    decode_secure_qr buf = .ok
      { indicator := (textFields buf).getD 0 ""
        referenceId := (textFields buf).getD 1 ""
        name := (textFields buf).getD 2 ""
        dob := (textFields buf).getD 3 ""
        gender := (textFields buf).getD 4 ""
        care_of := (textFields buf).getD 5 ""
        district := (textFields buf).getD 6 ""
        landmark := (textFields buf).getD 7 ""
        house := (textFields buf).getD 8 ""
        location := (textFields buf).getD 9 ""
        pin_code := (textFields buf).getD 10 ""
        post_office := (textFields buf).getD 11 ""
        state := (textFields buf).getD 12 ""
        street := (textFields buf).getD 13 ""
        sub_district := (textFields buf).getD 14 ""
        VTC := (textFields buf).getD 15 ""
        photo := String.mk (base64Encode (photoBytes buf ind))
        mobile := truthy (mobileEmailRaw buf ind).1
        email := truthy (mobileEmailRaw buf ind).2 } := by
  have htflen : (textFields buf).length = 16 := by rw [textFields_length, h16]
  unfold decode_secure_qr
  rw [if_neg (by rw [h16]; omega), if_neg (by rw [htflen]; omega), hind]

lemma decode_ok_ind {buf : List Nat} {r : DecodedRecord}
    (h : decode_secure_qr buf = .ok r) :
    ∃ ind, pyIntOfString (indicatorText buf) = some ind := by
  have h16 := decode_ok_16 h
  have htflen : (textFields buf).length = 16 := by rw [textFields_length, h16]
  unfold decode_secure_qr at h
  rw [if_neg (by rw [h16]; omega), if_neg (by rw [htflen]; omega)] at h
  cases hp : pyIntOfString (indicatorText buf) with
  | none => rw [hp] at h; exact Except.noConfusion h
  | some i => exact ⟨i, rfl⟩

lemma photoBytes_eq (buf : List Nat) (ind : Int)
    (h : 256 + tailExtra ind ≤ buf.length) :
    photoBytes buf ind =
      (buf.take (tailStartNat buf ind)).drop ((delimiterPositions buf).getLastD 0 + 1) := by
  rw [photoBytes]
  have h1 : ((delimiterPositions buf).getLastD 0 : Int) + 1 =
      (((delimiterPositions buf).getLastD 0 + 1 : Nat) : Int) := by push_cast; ring
  have h2 : tailStart buf ind = ((tailStartNat buf ind : Nat) : Int) := by
    rw [tailStart, tailStartNat]; omega
  rw [h1, h2, pySlice_natCast]

/-- The contact values on a buffer long enough for the declared tail, in
terms of the natural-number tail start. -/
lemma mobileEmail_flat (buf : List Nat) (ind : Int)
    (h : 256 + tailExtra ind ≤ buf.length) :
    truthy (mobileEmailRaw buf ind).1 =
      (if ind = 1 ∨ ind = 3 then
        some (bytesHex ((buf.drop (tailStartNat buf ind)).take 32).reverse)
      else none) ∧
    truthy (mobileEmailRaw buf ind).2 =
      (if ind = 2 ∨ ind = 3 then
        some (bytesHex ((buf.drop (tailStartNat buf ind +
          (if ind = 3 then 32 else 0))).take 32).reverse)
      else none) := by
  set ts := tailStartNat buf ind with hts_def
  have hts0 : tailStart buf ind = ((ts : Nat) : Int) := by
    rw [tailStart, hts_def, tailStartNat]; omega
  have hcast32 : tailStart buf ind + 32 = (((ts + 32 : Nat)) : Int) := by
    rw [hts0]; push_cast; ring
  have hcast64 : tailStart buf ind + 64 = (((ts + 64 : Nat)) : Int) := by
    rw [hts0]; push_cast; ring
  have hslice1 : pySlice buf (tailStart buf ind) (tailStart buf ind + 32) =
      (buf.drop ts).take 32 := by
    rw [hcast32, hts0, pySlice_natCast, drop_take_comm]
  have hslice2 : pySlice buf (tailStart buf ind + 32) (tailStart buf ind + 64) =
      (buf.drop (ts + 32)).take 32 := by
    rw [hcast32, hcast64, pySlice_natCast]
    have h64 : ts + 64 = ts + 32 + 32 := by omega
    rw [h64, drop_take_comm]
  have htsval : ts = buf.length - (256 + tailExtra ind) := by
    rw [hts_def, tailStartNat]
  by_cases h3 : ind = 3
  · have hextra : tailExtra ind = 64 := by simp [tailExtra, h3]
    have hlen1 : ((buf.drop ts).take 32).length = 32 :=
      drop_take_32_length buf ts (by omega)
    have hlen2 : ((buf.drop (ts + 32)).take 32).length = 32 :=
      drop_take_32_length buf (ts + 32) (by omega)
    rw [mobileEmailRaw, if_pos h3]
    refine ⟨?_, ?_⟩
    · show truthy (some _) = _
      rw [hslice1, truthy_of_ne_empty (hex_rev_ne_empty _ hlen1), if_pos (Or.inr h3)]
    · show truthy (some _) = _
      rw [hslice2, truthy_of_ne_empty (hex_rev_ne_empty _ hlen2), if_pos (Or.inr h3),
        if_pos h3]
  · by_cases h1 : ind = 1
    · have hextra : tailExtra ind = 32 := by simp [tailExtra, h1, h3]
      have hlen1 : ((buf.drop ts).take 32).length = 32 :=
        drop_take_32_length buf ts (by omega)
      rw [mobileEmailRaw, if_neg h3, if_pos h1]
      refine ⟨?_, ?_⟩
      · show truthy (some _) = _
        rw [hslice1, truthy_of_ne_empty (hex_rev_ne_empty _ hlen1), if_pos (Or.inl h1)]
      · show truthy none = _
        rw [if_neg (by rintro (h | h) <;> omega)]
        rfl
    · by_cases h2 : ind = 2
      · have hextra : tailExtra ind = 32 := by simp [tailExtra, h2, h3]
        have hlen1 : ((buf.drop ts).take 32).length = 32 :=
          drop_take_32_length buf ts (by omega)
        rw [mobileEmailRaw, if_neg h3, if_neg h1, if_pos h2]
        refine ⟨?_, ?_⟩
        · show truthy none = _
          rw [if_neg (by rintro (h | h) <;> omega)]
          rfl
        · show truthy (some _) = _
          rw [hslice1, truthy_of_ne_empty (hex_rev_ne_empty _ hlen1), if_pos (Or.inl h2),
            if_neg h3]
          rfl
      · rw [mobileEmailRaw, if_neg h3, if_neg h1, if_neg h2]
        refine ⟨?_, ?_⟩
        · show truthy none = _
          rw [if_neg (by rintro (h | h) <;> omega)]
          rfl
        · show truthy none = _
          rw [if_neg (by rintro (h | h) <;> omega)]
          rfl

/-! ## Claims -/

/-- C9: decoding is deterministic — two invocations on identical byte
buffers produce identical results; the decoder depends on nothing but its
input bytes. -/
theorem decode_deterministic (b1 b2 : List Nat) (h : b1 = b2) :
    decode_secure_qr b1 = decode_secure_qr b2 := by
  rw [h]

theorem decode_deterministic_witness :
    decode_secure_qr [49, 255] = decode_secure_qr [49, 255] :=
  decode_deterministic [49, 255] [49, 255] rfl

/-- C6: on a buffer with at least 16 delimiter bytes whose first text field
is empty or does not parse as a base-10 integer, decoding fails with the
invalid-indicator error. -/
theorem invalid_indicator_error (buf : List Nat)
    (hcount : 16 ≤ buf.count delimiter)
    (hbad : indicatorText buf = "" ∨ pyIntOfString (indicatorText buf) = none) :
    decode_secure_qr buf = .error .invalidIndicator := by
  have h16 : (delimiterPositions buf).length = 16 := by
    rw [delimiterPositions, length_firstDelims]; omega
  have htflen : (textFields buf).length = 16 := by rw [textFields_length, h16]
  have hnone : pyIntOfString (indicatorText buf) = none := by
    rcases hbad with he | hn
    · rw [he]; rfl
    · exact hn
  unfold decode_secure_qr
  rw [if_neg (by rw [h16]; omega), if_neg (by rw [htflen]; omega), hnone]

theorem invalid_indicator_error_witness :
    decode_secure_qr (97 :: List.replicate 16 255) = .error .invalidIndicator :=
  invalid_indicator_error (97 :: List.replicate 16 255) (by decide)
    (Or.inr (by decide))

/-- C7: whenever 16 delimiter bytes exist and the first field parses as an
integer, the decoder returns a record — it never fails on a buffer shorter
than the declared tail, because the photo and contact slices clamp. -/
theorem decode_total_of_parsed (buf : List Nat) (ind : Int)
    (hcount : 16 ≤ buf.count delimiter)
    (hind : pyIntOfString (indicatorText buf) = some ind) :
    ∃ r, decode_secure_qr buf = .ok r := by
  have h16 : (delimiterPositions buf).length = 16 := by
    rw [delimiterPositions, length_firstDelims]; omega
  exact ⟨_, decode_eq buf ind h16 hind⟩

theorem decode_total_of_parsed_witness :
    ∃ r, decode_secure_qr (49 :: List.replicate 16 255) = .ok r :=
  decode_total_of_parsed (49 :: List.replicate 16 255) 1 (by decide) (by decide)

/-- C4: the delimiter scanner returns exactly the first 16 offsets of byte
255 in ascending order; with fewer than 16 such bytes the decoder fails
with the malformed-container error; and the scan result depends only on the
buffer up to and including the 16th delimiter. -/
theorem delimiter_scanner_spec (buf : List Nat) :
    delimiterPositions buf = (allPositions buf 0).take 16 ∧
    List.Chain' (· < ·) (delimiterPositions buf) ∧
    (buf.count delimiter < 16 → decode_secure_qr buf = .error .malformedContainer) ∧
    ((delimiterPositions buf).length = 16 →
      ∀ buf2 : List Nat,
        buf2.take ((delimiterPositions buf).getLastD 0 + 1) =
          buf.take ((delimiterPositions buf).getLastD 0 + 1) →
        delimiterPositions buf2 = delimiterPositions buf) := by
  refine ⟨firstDelims_eq_take_allPositions buf 0 16,
    (pairwise_firstDelims buf 0 16).chain', ?_, ?_⟩
  · intro hcount
    have hlt : (delimiterPositions buf).length < 16 := by
      rw [delimiterPositions, length_firstDelims]; omega
    unfold decode_secure_qr
    rw [if_pos hlt]
  · intro h16 buf2 htake
    simp only [delimiterPositions] at h16 htake ⊢
    have hstop := firstDelims_take_last buf 0 16 (by omega) h16
    rw [Nat.sub_zero] at hstop
    have hsplit : buf2 = buf2.take ((firstDelims buf 0 16).getLastD 0 + 1) ++
        buf2.drop ((firstDelims buf 0 16).getLastD 0 + 1) :=
      (List.take_append_drop _ _).symm
    rw [hsplit, firstDelims_append, htake, hstop, h16, Nat.sub_self,
      firstDelims_zero, List.append_nil]

theorem delimiter_scanner_spec_witness :
    decode_secure_qr [7, 255, 255, 7] = .error .malformedContainer :=
  (delimiter_scanner_spec [7, 255, 255, 7]).2.2.1 (by decide)

/-- C1: the code does NOT guard the declared tail against the buffer end:
on a buffer far too short for the declared 256-byte tail it still returns a
record, instead of failing with the truncated-container error the
specification mandates.  (`[48]` is the text "0", followed by the 16
delimiters and no further bytes at all.) -/
theorem truncated_tail_returns_record :
    (decode_secure_qr (48 :: List.replicate 16 255)).toOption.isSome = true ∧
    decode_secure_qr (48 :: List.replicate 16 255) ≠ .error .truncatedContainer := by
  have hok : (decode_secure_qr (48 :: List.replicate 16 255)).toOption.isSome = true := by
    decide
  refine ⟨hok, ?_⟩
  intro hcontra
  rw [hcontra] at hok
  simp [Except.toOption] at hok

/-- C3: on a valid container the mobile key is present iff the indicator is
1 or 3 and the email key iff it is 2 or 3; when present, each is the
lowercase hex rendering (64 characters) of the byte-reversed 32-byte block
at `tail_start` (mobile), respectively at `tail_start + 32` when mobile is
also present and at `tail_start` otherwise (email). -/
theorem contact_fields_spec (buf : List Nat) (ind : Int) (r : DecodedRecord)
    (hv : validContainer buf ind) (hr : decode_secure_qr buf = .ok r) :
    (r.mobile.isSome ↔ (ind = 1 ∨ ind = 3)) ∧
    (r.email.isSome ↔ (ind = 2 ∨ ind = 3)) ∧
    (∀ s, r.mobile = some s →
      s = bytesHex ((buf.drop (tailStartNat buf ind)).take 32).reverse ∧
      s.length = 64) ∧
    (∀ s, r.email = some s →
      s = bytesHex ((buf.drop (tailStartNat buf ind +
        (if ind = 3 then 32 else 0))).take 32).reverse ∧
      s.length = 64) := by
  obtain ⟨h16, hind, hbound⟩ := hv
  have hlenb : 256 + tailExtra ind ≤ buf.length := by omega
  rw [decode_eq buf ind h16 hind] at hr
  injection hr with hR
  subst hR
  obtain ⟨hm, he⟩ := mobileEmail_flat buf ind hlenb
  have hlenm : ((buf.drop (tailStartNat buf ind)).take 32).length = 32 :=
    drop_take_32_length buf _ (by rw [tailStartNat]; omega)
  have hlene : ((buf.drop (tailStartNat buf ind +
      (if ind = 3 then 32 else 0))).take 32).length = 32 := by
    apply drop_take_32_length
    have h64 : ind = 3 → tailExtra ind = 64 := by intro h; simp [tailExtra, h]
    by_cases h3 : ind = 3
    · rw [if_pos h3, tailStartNat]
      have := h64 h3
      omega
    · rw [if_neg h3, tailStartNat]
      omega
  refine ⟨?_, ?_, ?_, ?_⟩
  · show (truthy (mobileEmailRaw buf ind).1).isSome ↔ _
    rw [hm]
    by_cases hc : ind = 1 ∨ ind = 3 <;> simp [hc]
  · show (truthy (mobileEmailRaw buf ind).2).isSome ↔ _
    rw [he]
    by_cases hc : ind = 2 ∨ ind = 3 <;> simp [hc]
  · intro s hs
    replace hs : truthy (mobileEmailRaw buf ind).1 = some s := hs
    rw [hm] at hs
    by_cases hc : ind = 1 ∨ ind = 3
    · rw [if_pos hc] at hs
      injection hs with hs
      refine ⟨hs.symm, ?_⟩
      rw [← hs]
      show (bytesHex _).length = 64
      rw [bytesHex_length, List.length_reverse, hlenm]
    · rw [if_neg hc] at hs
      exact Option.noConfusion hs
  · intro s hs
    replace hs : truthy (mobileEmailRaw buf ind).2 = some s := hs
    rw [he] at hs
    by_cases hc : ind = 2 ∨ ind = 3
    · rw [if_pos hc] at hs
      injection hs with hs
      refine ⟨hs.symm, ?_⟩
      rw [← hs]
      show (bytesHex _).length = 64
      rw [bytesHex_length, List.length_reverse, hlene]
    · rw [if_neg hc] at hs
      exact Option.noConfusion hs

/-- C5: on a valid container the photo field is the base64 encoding of
exactly the bytes between the byte after the 16th delimiter and
`tail_start`, with `tail_start = length − (256 + extra)` and the extra one
of 0, 32 or 64 bytes. -/
theorem photo_field_spec (buf : List Nat) (ind : Int) (r : DecodedRecord)
    (hv : validContainer buf ind) (hr : decode_secure_qr buf = .ok r) :
    r.photo = String.mk (base64Encode
      ((buf.take (tailStartNat buf ind)).drop
        ((delimiterPositions buf).getLastD 0 + 1))) ∧
    tailStartNat buf ind = buf.length - (256 + tailExtra ind) ∧
    (tailExtra ind = 0 ∨ tailExtra ind = 32 ∨ tailExtra ind = 64) := by
  obtain ⟨h16, hind, hbound⟩ := hv
  have hlenb : 256 + tailExtra ind ≤ buf.length := by omega
  rw [decode_eq buf ind h16 hind] at hr
  injection hr with hR
  subst hR
  refine ⟨?_, rfl, ?_⟩
  · show String.mk (base64Encode (photoBytes buf ind)) = _
    rw [photoBytes_eq buf ind hlenb]
  · rw [tailExtra]
    by_cases h3 : ind = 3
    · rw [if_pos h3]; right; right; rfl
    · rw [if_neg h3]
      by_cases h12 : ind = 1 ∨ ind = 2
      · rw [if_pos h12]; right; left; rfl
      · rw [if_neg h12]; left; rfl

/-- A concrete valid container with indicator 1: text "1", 16 delimiters,
empty photo, and a 288-byte all-zero tail (32-byte mobile block + 256-byte
signature). -/
def bufInd1 : List Nat := 49 :: (List.replicate 16 255 ++ List.replicate 288 0)

/-- The record `bufInd1` decodes to. -/
def recInd1 : DecodedRecord :=
  { indicator := "1", referenceId := "", name := "", dob := "", gender := ""
    care_of := "", district := "", landmark := "", house := "", location := ""
    pin_code := "", post_office := "", state := "", street := "", sub_district := ""
    VTC := "", photo := "", mobile := some (String.mk (List.replicate 64 '0'))
    email := none }

set_option maxRecDepth 100000 in
theorem contact_fields_spec_witness :
    recInd1.mobile.isSome ↔ ((1 : Int) = 1 ∨ (1 : Int) = 3) :=
  (contact_fields_spec bufInd1 1 recInd1
    ⟨by decide, by decide, by decide⟩ (by rfl)).1

/-- A concrete valid container with indicator 0: text "0", 16 delimiters, a
3-byte photo, and a 256-byte all-zero signature. -/
def bufInd0 : List Nat := 48 :: (List.replicate 16 255 ++ ([9, 9, 9] ++ List.replicate 256 0))

/-- The record `bufInd0` decodes to. -/
def recInd0 : DecodedRecord :=
  { indicator := "0", referenceId := "", name := "", dob := "", gender := ""
    care_of := "", district := "", landmark := "", house := "", location := ""
    pin_code := "", post_office := "", state := "", street := "", sub_district := ""
    VTC := "", photo := "CQkJ", mobile := none, email := none }

set_option maxRecDepth 100000 in
theorem photo_field_spec_witness :
    recInd0.photo = String.mk (base64Encode
      ((bufInd0.take (tailStartNat bufInd0 0)).drop
        ((delimiterPositions bufInd0).getLastD 0 + 1))) :=
  (photo_field_spec bufInd0 0 recInd0
    ⟨by decide, by decide, by decide⟩ (by rfl)).1

/-- C8: a contact key is present only when its rendered hex string is
non-empty; in particular, when the indicator declares a contact field but
the corresponding 32-byte tail slice is empty (buffer too short), the key
is entirely absent from the output. -/
theorem contact_key_requires_nonempty (buf : List Nat) (ind : Int) (r : DecodedRecord)
    (hind : pyIntOfString (indicatorText buf) = some ind)
    (hr : decode_secure_qr buf = .ok r) :
    (∀ s, r.mobile = some s → s ≠ "") ∧
    (∀ s, r.email = some s → s ≠ "") ∧
    ((ind = 1 ∨ ind = 3) →
      pySlice buf (tailStart buf ind) (tailStart buf ind + 32) = [] →
      r.mobile = none) ∧
    (ind = 2 →
      pySlice buf (tailStart buf ind) (tailStart buf ind + 32) = [] →
      r.email = none) ∧
    (ind = 3 →
      pySlice buf (tailStart buf ind + 32) (tailStart buf ind + 64) = [] →
      r.email = none) := by
  have h16 := decode_ok_16 hr
  rw [decode_eq buf ind h16 hind] at hr
  injection hr with hR
  subst hR
  refine ⟨?_, ?_, ?_, ?_, ?_⟩
  · intro s hs
    exact truthy_some hs
  · intro s hs
    exact truthy_some hs
  · intro hc hempty
    show truthy (mobileEmailRaw buf ind).1 = none
    rcases hc with h1 | h3
    · rw [mobileEmailRaw, if_neg (by omega), if_pos h1]
      show truthy (some (bytesHex _)) = none
      rw [hempty]
      simp [truthy, bytesHex]
    · rw [mobileEmailRaw, if_pos h3]
      show truthy (some (bytesHex _)) = none
      rw [hempty]
      simp [truthy, bytesHex]
  · intro h2 hempty
    show truthy (mobileEmailRaw buf ind).2 = none
    rw [mobileEmailRaw, if_neg (by omega), if_neg (by omega), if_pos h2]
    show truthy (some (bytesHex _)) = none
    rw [hempty]
    simp [truthy, bytesHex]
  · intro h3 hempty
    show truthy (mobileEmailRaw buf ind).2 = none
    rw [mobileEmailRaw, if_pos h3]
    show truthy (some (bytesHex _)) = none
    rw [hempty]
    simp [truthy, bytesHex]

/-- The too-short indicator-1 container: "1" and the 16 delimiters, nothing
else; its declared 288-byte tail lies entirely out of range. -/
def bufShort1 : List Nat := 49 :: List.replicate 16 255

/-- The record `bufShort1` decodes to: no mobile key despite indicator 1. -/
def recShort1 : DecodedRecord :=
  { indicator := "1", referenceId := "", name := "", dob := "", gender := ""
    care_of := "", district := "", landmark := "", house := "", location := ""
    pin_code := "", post_office := "", state := "", street := "", sub_district := ""
    VTC := "", photo := "", mobile := none, email := none }

set_option maxRecDepth 100000 in
theorem contact_key_requires_nonempty_witness : recShort1.mobile = none :=
  (contact_key_requires_nonempty bufShort1 1 recShort1 (by decide) (by rfl)).2.2.1
    (Or.inl rfl) (by decide)

/-- C10: no text field of a successfully decoded record contains the
delimiter character (code point 255): each field is decoded from a byte
range lying strictly between delimiter positions. -/
theorem fields_delimiter_free (buf : List Nat) (r : DecodedRecord)
    (hr : decode_secure_qr buf = .ok r) :
    ∀ s ∈ textFieldList r, ∀ c ∈ s.data, c.toNat ≠ delimiter := by
  have h16 := decode_ok_16 hr
  obtain ⟨ind, hind⟩ := decode_ok_ind hr
  obtain ⟨segs, rest, hjoin, hslen, hfree, _⟩ := exists_join 16 buf 0
  have hslen16 : segs.length = 16 := by
    rw [hslen]; exact h16
  have htf : textFields buf = segs.map latin1Decode := by
    rw [hjoin]
    exact textFields_join segs rest hslen16 hfree
  have key : ∀ j : Nat, ∀ c ∈ ((textFields buf).getD j "").data, c.toNat ≠ delimiter := by
    intro j c hc
    rw [htf, List.getD_eq_getElem?_getD, List.getElem?_map] at hc
    rcases lt_or_ge j segs.length with hj | hj
    · rw [List.getElem?_eq_getElem hj] at hc
      simp only [Option.map_some', Option.getD_some] at hc
      obtain ⟨b, hb, rfl⟩ := List.mem_map.mp hc
      exact charOfNat_toNat_ne b (hfree _ (segs.getElem_mem hj) b hb)
    · rw [List.getElem?_eq_none hj] at hc
      simp at hc
  rw [decode_eq buf ind h16 hind] at hr
  injection hr with hR
  subst hR
  intro s hs
  simp only [textFieldList, List.mem_cons, List.not_mem_nil, or_false] at hs
  rcases hs with rfl | rfl | rfl | rfl | rfl | rfl | rfl | rfl | rfl | rfl | rfl | rfl | rfl | rfl | rfl | rfl
  · exact key 0
  · exact key 1
  · exact key 2
  · exact key 3
  · exact key 4
  · exact key 5
  · exact key 6
  · exact key 7
  · exact key 8
  · exact key 9
  · exact key 10
  · exact key 11
  · exact key 12
  · exact key 13
  · exact key 14
  · exact key 15

set_option maxRecDepth 100000 in
theorem fields_delimiter_free_witness : ('1' : Char).toNat ≠ delimiter :=
  fields_delimiter_free bufShort1 recShort1 (by rfl) "1" (by decide) '1' (by decide)

set_option maxRecDepth 100000 in
/-- C2 counterexample: with the claimed buffer layout — 16 delimited
segments, photo, then the 256-byte signature, then the contact block — the
decoder reads its mobile bytes from the START of the tail (the signature),
not from the appended contact block: with indicator "1", an all-zero
signature and an all-ones contact block, mobile comes out as 64 zeros, not
as the hex of the reversed contact block. -/
theorem roundtrip_sig_before_contacts_fails :
    (decode_secure_qr (joinSegs
        [[49], [], [], [], [], [], [], [], [], [], [], [], [], [], [], []]
        (List.replicate 256 0 ++ List.replicate 32 1))).map DecodedRecord.mobile =
      .ok (some (String.mk (List.replicate 64 '0'))) ∧
    String.mk (List.replicate 64 '0') ≠ bytesHex (List.replicate 32 (1 : Nat)).reverse := by
  constructor
  · rfl
  · decide

/-- C2 (amended): the round trip holds when the buffer is built as 16
sentinel-delimited 255-free segments, the photo blob, then the contact
blocks the indicator declares, then the 256-byte signature: every text
field, the base64 photo and the hex-of-reversed-block contact fields are
reproduced exactly. -/
theorem roundtrip_contacts_then_signature
    (s0 s1 s2 s3 s4 s5 s6 s7 s8 s9 s10 s11 s12 s13 s14 s15 : List Nat)
    (photo mobileBlk emailBlk sig : List Nat) (ind : Int)
    (hfree : ∀ s ∈ [s0, s1, s2, s3, s4, s5, s6, s7, s8, s9, s10, s11, s12, s13, s14, s15],
      ∀ b ∈ s, b ≠ delimiter)
    (hind : pyIntOfString (latin1Decode s0) = some ind)
    (hm : mobileBlk.length = 32) (he : emailBlk.length = 32) (hsig : sig.length = 256) :
    decode_secure_qr (joinSegs
        [s0, s1, s2, s3, s4, s5, s6, s7, s8, s9, s10, s11, s12, s13, s14, s15]
        (photo ++ (((if ind = 1 ∨ ind = 3 then mobileBlk else []) ++
          (if ind = 2 ∨ ind = 3 then emailBlk else [])) ++ sig))) = .ok
      { indicator := latin1Decode s0
        referenceId := latin1Decode s1
        name := latin1Decode s2
        dob := latin1Decode s3
        gender := latin1Decode s4
        care_of := latin1Decode s5
        district := latin1Decode s6
        landmark := latin1Decode s7
        house := latin1Decode s8
        location := latin1Decode s9
        pin_code := latin1Decode s10
        post_office := latin1Decode s11
        state := latin1Decode s12
        street := latin1Decode s13
        sub_district := latin1Decode s14
        VTC := latin1Decode s15
        photo := String.mk (base64Encode photo)
        mobile := if ind = 1 ∨ ind = 3 then some (bytesHex mobileBlk.reverse) else none
        email := if ind = 2 ∨ ind = 3 then some (bytesHex emailBlk.reverse) else none } := by
  set segs : List (List Nat) :=
    [s0, s1, s2, s3, s4, s5, s6, s7, s8, s9, s10, s11, s12, s13, s14, s15] with hsegs
  set contacts : List Nat := (if ind = 1 ∨ ind = 3 then mobileBlk else []) ++
    (if ind = 2 ∨ ind = 3 then emailBlk else []) with hcon
  set rest : List Nat := photo ++ (contacts ++ sig) with hrest_def
  have hclen : contacts.length = tailExtra ind := by
    rw [hcon, List.length_append]
    simp only [tailExtra]
    split_ifs <;> simp [hm, he] <;> omega
  have hrest_len : 256 + tailExtra ind ≤ rest.length := by
    rw [hrest_def, List.length_append, List.length_append, hclen, hsig]
    omega
  have hts : rest.length - (256 + tailExtra ind) = photo.length := by
    rw [hrest_def, List.length_append, List.length_append, hclen, hsig]
    omega
  have hphoto : rest.take (rest.length - (256 + tailExtra ind)) = photo := by
    rw [hts, hrest_def, List.take_left]
  have hdrop : rest.drop (rest.length - (256 + tailExtra ind)) = contacts ++ sig := by
    rw [hts, hrest_def, List.drop_left]
  have hmob : (if ind = 1 ∨ ind = 3 then
      some (bytesHex ((rest.drop (rest.length - (256 + tailExtra ind))).take 32).reverse)
    else none) =
      (if ind = 1 ∨ ind = 3 then some (bytesHex mobileBlk.reverse) else none) := by
    by_cases hc : ind = 1 ∨ ind = 3
    · rw [if_pos hc, if_pos hc, hdrop, hcon, if_pos hc, List.append_assoc,
        List.take_left' hm]
    · rw [if_neg hc, if_neg hc]
  have hem : (if ind = 2 ∨ ind = 3 then
      some (bytesHex ((rest.drop (rest.length - (256 + tailExtra ind) +
        (if ind = 3 then 32 else 0))).take 32).reverse)
    else none) =
      (if ind = 2 ∨ ind = 3 then some (bytesHex emailBlk.reverse) else none) := by
    by_cases hc : ind = 2 ∨ ind = 3
    · rw [if_pos hc, if_pos hc]
      by_cases h3 : ind = 3
      · rw [if_pos h3, hts, ← List.drop_drop, hrest_def, List.drop_left, hcon,
          if_pos (Or.inr h3), if_pos hc, List.append_assoc, List.drop_left' hm,
          List.take_left' he]
      · have h2 : ind = 2 := by rcases hc with h | h; exact h; exact absurd h h3
        rw [if_neg h3, Nat.add_zero, hdrop, hcon, if_neg (by omega), if_pos hc,
          List.nil_append, List.take_left' he]
    · rw [if_neg hc, if_neg hc]
  rw [decode_join segs rest ind rfl hfree hind hrest_len, hphoto, hmob, hem]
  rfl

set_option maxRecDepth 1000000 in
theorem roundtrip_contacts_then_signature_witness :
    decode_secure_qr (joinSegs
        [[51], [], [], [], [], [], [], [], [], [], [], [], [], [], [], []]
        ([7] ++ (((if (3 : Int) = 1 ∨ (3 : Int) = 3 then List.replicate 32 5 else []) ++
          (if (3 : Int) = 2 ∨ (3 : Int) = 3 then List.replicate 32 6 else [])) ++
          List.replicate 256 0))) = .ok
      { indicator := latin1Decode [51]
        referenceId := latin1Decode []
        name := latin1Decode []
        dob := latin1Decode []
        gender := latin1Decode []
        care_of := latin1Decode []
        district := latin1Decode []
        landmark := latin1Decode []
        house := latin1Decode []
        location := latin1Decode []
        pin_code := latin1Decode []
        post_office := latin1Decode []
        state := latin1Decode []
        street := latin1Decode []
        sub_district := latin1Decode []
        VTC := latin1Decode []
        photo := String.mk (base64Encode [7])
        mobile := if (3 : Int) = 1 ∨ (3 : Int) = 3 then
            some (bytesHex (List.replicate 32 5).reverse) else none
        email := if (3 : Int) = 2 ∨ (3 : Int) = 3 then
            some (bytesHex (List.replicate 32 6).reverse) else none } :=
  roundtrip_contacts_then_signature [51] [] [] [] [] [] [] [] [] [] [] [] [] [] [] []
    [7] (List.replicate 32 5) (List.replicate 32 6) (List.replicate 256 0) 3
    (by decide) (by decide) (by decide) (by decide) (by decide)

end SecureQR
